import Mathlib

/-!
Verification of the TrimToFit interval-resolution and segment-reassembly core.

The definitions below are a shallow embedding of
`src/trimtofit/core/audio_processor.py` (class `AudioProcessor`), with the
legacy duplicate in `src/processor.py` sharing the same `invert_ranges` body.
Time offsets are Python integers, embedded as `ℤ`; ranges are pairs `(ℤ × ℤ)`.
Python's in-place stable `list.sort(key=lambda x: x[0])` is embedded as a
stable insertion sort by the first component, with the post-call state of the
caller's list made explicit where a claim is about the mutation.
-/

namespace TrimToFit

/-- Ordering relation used by `remove_ranges.sort(key=lambda x: x[0])`:
compare ranges by their start offset. -/
def keyLe (a b : ℤ × ℤ) : Prop := a.1 ≤ b.1

instance : DecidableRel keyLe := fun a b => inferInstanceAs (Decidable (a.1 ≤ b.1))

instance : IsTotal (ℤ × ℤ) keyLe := ⟨fun a b => le_total a.1 b.1⟩

instance : IsTrans (ℤ × ℤ) keyLe := ⟨fun _ _ _ h h2 => le_trans h h2⟩

/-- Embedding of `ranges.sort(key=lambda x: x[0])`: Python's sort is stable and
ascending by the key, which a stable insertion sort by `keyLe` reproduces. -/
def sortRanges (l : List (ℤ × ℤ)) : List (ℤ × ℤ) :=
  List.insertionSort keyLe l

/-- The cursor-sweep loop of `AudioProcessor.invert_ranges`
(`audio_processor.py` lines 32-46), operating on the already-sorted list:
`ct` is `current_time`, `T` is `total_duration_ms`; for each `(start, end)`
a keep-range `(current_time, start)` is emitted when `start > current_time`,
then `current_time = max(current_time, end)`; after the loop a final
`(current_time, total_duration_ms)` is emitted when
`current_time < total_duration_ms`. -/
def sweep : List (ℤ × ℤ) → ℤ → ℤ → List (ℤ × ℤ)
  | [], ct, T => if ct < T then [(ct, T)] else []
  | (s, e) :: rest, ct, T =>
      (if ct < s then [(ct, s)] else []) ++ sweep rest (max ct e) T

/-- Embedding of `AudioProcessor.invert_ranges(remove_ranges, total_duration_ms)`:
sort the remove ranges by start, then run the cursor sweep from 0. -/
def invert_ranges (remove_ranges : List (ℤ × ℤ)) (total_duration_ms : ℤ) :
    List (ℤ × ℤ) :=
  sweep (sortRanges remove_ranges) 0 total_duration_ms

/-- State-passing embedding of a call to `invert_ranges`: Python's
`remove_ranges.sort(...)` mutates the caller's list in place, so a call
returns both the new state of the argument list (first component) and the
computed keep-ranges (second component). -/
def invert_ranges_call (l : List (ℤ × ℤ)) (T : ℤ) :
    List (ℤ × ℤ) × List (ℤ × ℤ) :=
  (sortRanges l, sweep (sortRanges l) 0 T)

/-- State-passing embedding of the Keep-mode branch of `process_audio`
(`remove_ranges_ms.sort(key=lambda x: x[0]); keep_ranges = remove_ranges_ms`):
the first component is the caller's list after the in-place sort, the second
the keep-ranges used. -/
def keep_branch_call (l : List (ℤ × ℤ)) : List (ℤ × ℤ) × List (ℤ × ℤ) :=
  (sortRanges l, sortRanges l)

/-- The keep-range resolution step of `process_audio` (lines 90-96): in Keep
mode the sorted input is used directly, otherwise `invert_ranges` is applied. -/
def resolve_keep_ranges (ranges : List (ℤ × ℤ)) (total : ℤ)
    (keepSel : Bool) : List (ℤ × ℤ) :=
  if keepSel then sortRanges ranges else invert_ranges ranges total

/-- A time point `x` lies in one of the half-open millisecond ranges of `l`
(pydub's `audio[start:end]` slice covers `start ≤ x < end`). -/
def covers (l : List (ℤ × ℤ)) (x : ℤ) : Prop :=
  ∃ r ∈ l, r.1 ≤ x ∧ x < r.2

instance (l : List (ℤ × ℤ)) (x : ℤ) : Decidable (covers l x) :=
  inferInstanceAs (Decidable (∃ r ∈ l, r.1 ≤ x ∧ x < r.2))

/-- Total duration (in ms) of a list of ranges: the sum of `end - start`. -/
def keepSum (l : List (ℤ × ℤ)) : ℤ :=
  (l.map (fun r => r.2 - r.1)).sum

/-- Measure of the removed region clamped to `[0, T)`: the number of integer
millisecond points of `[0, T)` covered by some range of `l` (overlaps counted
once, i.e. the measure of the merged, clamped union). -/
def removedMeasure (l : List (ℤ × ℤ)) (T : ℤ) : ℤ :=
  (((Finset.Ico (0 : ℤ) T).filter (fun x => covers l x)).card : ℤ)

/-- Observable collaborator operations of `process_audio`, in call order:
progress callbacks, `audio[start:end]` slices, `final_audio += segment`
appends, and the `final_audio.export(...)` attempt. Progress arguments are
recorded as the exact rational value of the Python expression. -/
inductive Ev
  | progress (q : ℚ)
  | slice (s e : ℤ)
  | append
  | exportFile

/-- Errors `process_audio` can raise. -/
inductive PErr
  | fileNotFound (msg : String)
  | runtimeError (msg : String)

/-- Collaborator environment of one `process_audio` call: whether the input
path exists, the result of `AudioSegment.from_file` (on success, the audio's
length `len(audio)` in ms), and whether the final export succeeds. -/
structure Env where
  inputExists : Bool
  loadResult : Except String ℤ
  exportOk : Bool

/-- The assembly loop of `process_audio` (lines 100-110): for each keep-range
`(start, end)` at index `i`, slice, append, then (when a callback was given)
report `0.3 + (i + 1) * (0.5 / count)`. -/
def assembleEvents (keeps : List (ℤ × ℤ)) (cb : Bool) : List Ev :=
  (keeps.enum.map (fun p =>
    [Ev.slice p.2.1 p.2.2, Ev.append] ++
      (if cb then
        [Ev.progress (3 / 10 + ((p.1 : ℚ) + 1) * (1 / 2 / (keeps.length : ℚ)))]
      else []))).flatten

/-- Embedding of `AudioProcessor.process_audio`: the sequence of collaborator
events it performs and its outcome. `keepSel` is `keep_selected_ranges`,
`cb` records whether a `progress_callback` was supplied. File-system
concerns (bitrate sniffing, directory creation, unique output naming) have
no observable effect on the modelled events and are omitted. -/
def process_audio (env : Env) (ranges : List (ℤ × ℤ)) (keepSel : Bool)
    (cb : Bool) : List Ev × Except PErr Unit :=
  if env.inputExists = false then
    ([], Except.error (PErr.fileNotFound "Input file not found"))
  else
    let t1 : List Ev := if cb then [Ev.progress (1 / 10)] else []
    match env.loadResult with
    | Except.error e =>
        (t1, Except.error (PErr.runtimeError ("Failed to load audio: " ++ e)))
    | Except.ok total =>
        let t2 := t1 ++ (if cb then [Ev.progress (3 / 10)] else [])
        let keeps := resolve_keep_ranges ranges total keepSel
        let t3 := t2 ++ assembleEvents keeps cb
        let t4 := t3 ++ (if cb then [Ev.progress (8 / 10)] else [])
        let t5 := t4 ++ [Ev.exportFile]
        if env.exportOk then
          (t5 ++ (if cb then [Ev.progress 1] else []), Except.ok ())
        else
          (t5, Except.error (PErr.runtimeError "Failed to export audio"))

end TrimToFit

namespace TrimToFit

/-- Nothing covers a point in the empty list. -/
lemma covers_nil (x : ℤ) : ¬ covers [] x := by
  simp [covers]

/-- Coverage by a cons: either the head range covers `x` or the tail does. -/
lemma covers_cons (r : ℤ × ℤ) (l : List (ℤ × ℤ)) (x : ℤ) :
    covers (r :: l) x ↔ (r.1 ≤ x ∧ x < r.2) ∨ covers l x := by
  simp [covers]

/-- Coverage distributes over list append. -/
lemma covers_append (l1 l2 : List (ℤ × ℤ)) (x : ℤ) :
    covers (l1 ++ l2) x ↔ covers l1 x ∨ covers l2 x := by
  simp [covers, or_and_right, exists_or]

/-- Coverage only depends on the multiset of ranges. -/
lemma covers_perm {l1 l2 : List (ℤ × ℤ)} (h : l1.Perm l2) (x : ℤ) :
    covers l1 x ↔ covers l2 x := by
  unfold covers
  constructor
  · rintro ⟨r, hr, hx⟩; exact ⟨r, h.mem_iff.mp hr, hx⟩
  · rintro ⟨r, hr, hx⟩; exact ⟨r, h.mem_iff.mpr hr, hx⟩

/-- The sorted list is a permutation of the input. -/
lemma sortRanges_perm (l : List (ℤ × ℤ)) : (sortRanges l).Perm l :=
  List.perm_insertionSort keyLe l

/-- The sorted list is ascending by start offset. -/
lemma sortRanges_sorted (l : List (ℤ × ℤ)) :
    (sortRanges l).Pairwise keyLe :=
  List.sorted_insertionSort keyLe l

/-- Every range the sweep emits is non-degenerate (`start < end`),
regardless of the input list. -/
lemma sweep_valid :
    ∀ (l : List (ℤ × ℤ)) (ct T : ℤ), ∀ r ∈ sweep l ct T, r.1 < r.2 := by
  intro l
  induction l with
  | nil =>
    intro ct T r hr
    simp only [sweep] at hr
    split at hr
    · rcases List.mem_singleton.mp hr with rfl
      simpa using by assumption
    · simp at hr
  | cons p rest ih =>
    rcases p with ⟨s, e⟩
    intro ct T r hr
    simp only [sweep, List.mem_append] at hr
    rcases hr with hr | hr
    · split at hr
      · rcases List.mem_singleton.mp hr with rfl
        simpa using by assumption
      · simp at hr
    · exact ih (max ct e) T r hr

/-- Every range the sweep emits starts at or after the entry cursor. -/
lemma sweep_lb :
    ∀ (l : List (ℤ × ℤ)) (ct T : ℤ), ∀ r ∈ sweep l ct T, ct ≤ r.1 := by
  intro l
  induction l with
  | nil =>
    intro ct T r hr
    simp only [sweep] at hr
    split at hr
    · rcases List.mem_singleton.mp hr with rfl; exact le_refl _
    · simp at hr
  | cons p rest ih =>
    rcases p with ⟨s, e⟩
    intro ct T r hr
    simp only [sweep, List.mem_append] at hr
    rcases hr with hr | hr
    · split at hr
      · rcases List.mem_singleton.mp hr with rfl; exact le_refl _
      · simp at hr
    · exact le_trans (le_max_left ct e) (ih (max ct e) T r hr)

/-- If every input range satisfies `start ≤ end ≤ T` and the cursor is
non-negative, every emitted range satisfies `0 ≤ start < end ≤ T`. -/
lemma sweep_bounds :
    ∀ (l : List (ℤ × ℤ)) (ct T : ℤ), 0 ≤ ct →
      (∀ r ∈ l, r.1 ≤ r.2 ∧ r.2 ≤ T) →
      ∀ r ∈ sweep l ct T, 0 ≤ r.1 ∧ r.1 < r.2 ∧ r.2 ≤ T := by
  intro l
  induction l with
  | nil =>
    intro ct T hct _ r hr
    simp only [sweep] at hr
    split at hr
    · rcases List.mem_singleton.mp hr with rfl
      exact ⟨hct, by assumption, le_refl _⟩
    · simp at hr
  | cons p rest ih =>
    rcases p with ⟨s, e⟩
    intro ct T hct hv r hr
    have hse : s ≤ e ∧ e ≤ T := hv (s, e) (List.mem_cons_self _ _)
    simp only [sweep, List.mem_append] at hr
    rcases hr with hr | hr
    · split at hr
      · rcases List.mem_singleton.mp hr with rfl
        refine ⟨hct, by assumption, le_trans hse.1 hse.2⟩
      · simp at hr
    · exact ih (max ct e) T (le_trans hct (le_max_left ct e))
        (fun r' hr' => hv r' (List.mem_cons_of_mem _ hr')) r hr

/-- If every input range is non-degenerate, the emitted ranges are strictly
separated: each one ends strictly before the next begins. -/
lemma sweep_sep :
    ∀ (l : List (ℤ × ℤ)) (ct T : ℤ), (∀ r ∈ l, r.1 < r.2) →
      (sweep l ct T).Pairwise (fun a b => a.2 < b.1) := by
  intro l
  induction l with
  | nil =>
    intro ct T _
    simp only [sweep]
    split
    · exact List.pairwise_singleton _ _
    · exact List.Pairwise.nil
  | cons p rest ih =>
    rcases p with ⟨s, e⟩
    intro ct T hv
    have hse : s < e := hv (s, e) (List.mem_cons_self _ _)
    have hrest : ∀ r ∈ rest, r.1 < r.2 :=
      fun r hr => hv r (List.mem_cons_of_mem _ hr)
    simp only [sweep]
    split
    · refine List.pairwise_cons.mpr ⟨?_, ih (max ct e) T hrest⟩
      intro b hb
      have h1 : max ct e ≤ b.1 := sweep_lb rest (max ct e) T b hb
      have h2 : e ≤ max ct e := le_max_right ct e
      exact lt_of_lt_of_le hse (le_trans h2 h1)
    · simpa using ih (max ct e) T hrest

/-- Coverage by a singleton range. -/
lemma covers_singleton (a b x : ℤ) : covers [(a, b)] x ↔ a ≤ x ∧ x < b := by
  simp [covers]

/-- Coverage characterization of the sweep: on a list sorted by start whose
ranges satisfy `start ≤ end ≤ T`, the sweep's output covers exactly the
points of `[ct, T)` not covered by the input ranges. -/
lemma cover_sweep :
    ∀ (l : List (ℤ × ℤ)) (ct T : ℤ),
      l.Pairwise keyLe →
      (∀ r ∈ l, r.1 ≤ r.2 ∧ r.2 ≤ T) →
      ∀ x, covers (sweep l ct T) x ↔ (ct ≤ x ∧ x < T ∧ ¬ covers l x) := by
  intro l
  induction l with
  | nil =>
    intro ct T _ _ x
    simp only [sweep]
    split
    · simp [covers]
    · simp only [covers_nil, iff_false, not_and, not_not]
      simp [covers]
      omega
  | cons p rest ih =>
    rcases p with ⟨s, e⟩
    intro ct T hsort hv x
    have hse : s ≤ e ∧ e ≤ T := hv (s, e) (List.mem_cons_self _ _)
    have hrest_start : ∀ b ∈ rest, s ≤ b.1 :=
      fun b hb => (List.pairwise_cons.mp hsort).1 b hb
    have hrest_sort : rest.Pairwise keyLe := (List.pairwise_cons.mp hsort).2
    have hrest_v : ∀ r ∈ rest, r.1 ≤ r.2 ∧ r.2 ≤ T :=
      fun r hr => hv r (List.mem_cons_of_mem _ hr)
    have hcr : covers rest x → s ≤ x := by
      rintro ⟨b, hb, h1, _⟩
      exact le_trans (hrest_start b hb) h1
    have IH := ih (max ct e) T hrest_sort hrest_v x
    simp only [sweep]
    rw [covers_append, covers_cons, IH]
    split
    · -- emit branch: ct < s
      rename_i h
      have hmax : max ct e = e := max_eq_right (le_trans (le_of_lt h) hse.1)
      rw [covers_singleton, hmax]
      constructor
      · rintro (⟨h1, h2⟩ | ⟨h1, h2, h3⟩)
        · refine ⟨h1, by omega, ?_⟩
          rintro (⟨hs, _⟩ | hP)
          · omega
          · exact absurd (hcr hP) (by omega)
        · refine ⟨by omega, h2, ?_⟩
          rintro (⟨_, h4⟩ | hP)
          · omega
          · exact h3 hP
      · rintro ⟨h1, h2, h3⟩
        have hA : ¬ (s ≤ x ∧ x < e) := fun hh => h3 (Or.inl hh)
        have hB : ¬ covers rest x := fun hh => h3 (Or.inr hh)
        by_cases hxs : x < s
        · exact Or.inl ⟨h1, hxs⟩
        · exact Or.inr ⟨by omega, h2, hB⟩
    · -- no-emit branch: s ≤ ct
      rename_i h
      simp only [covers_nil, false_or]
      constructor
      · rintro ⟨h1, h2, h3⟩
        rw [max_le_iff] at h1
        refine ⟨h1.1, h2, ?_⟩
        rintro (⟨_, h4⟩ | hP)
        · exact absurd h1.2 (by omega)
        · exact h3 hP
      · rintro ⟨h1, h2, h3⟩
        have hA : ¬ (s ≤ x ∧ x < e) := fun hh => h3 (Or.inl hh)
        have hB : ¬ covers rest x := fun hh => h3 (Or.inr hh)
        exact ⟨max_le_iff.mpr ⟨h1, by omega⟩, h2, hB⟩

/-- Coverage characterization of `invert_ranges`: if all remove-ranges
satisfy `start ≤ end ≤ T`, the keep-ranges cover exactly the points of
`[0, T)` not covered by the remove-ranges. -/
lemma invert_cover (l : List (ℤ × ℤ)) (T : ℤ)
    (hv : ∀ r ∈ l, r.1 ≤ r.2 ∧ r.2 ≤ T) (x : ℤ) :
    covers (invert_ranges l T) x ↔ 0 ≤ x ∧ x < T ∧ ¬ covers l x := by
  have hperm := sortRanges_perm l
  have h := cover_sweep (sortRanges l) 0 T (sortRanges_sorted l)
    (fun r hr => hv r (hperm.mem_iff.mp hr)) x
  unfold invert_ranges
  rw [h, covers_perm hperm]

/-- Bounds for `invert_ranges` output under weak input validity. -/
lemma invert_bounds (l : List (ℤ × ℤ)) (T : ℤ)
    (hv : ∀ r ∈ l, r.1 ≤ r.2 ∧ r.2 ≤ T) :
    ∀ r ∈ invert_ranges l T, 0 ≤ r.1 ∧ r.1 < r.2 ∧ r.2 ≤ T :=
  sweep_bounds (sortRanges l) 0 T (le_refl 0)
    (fun r hr => hv r ((sortRanges_perm l).mem_iff.mp hr))

/-- Strict separation of `invert_ranges` output for non-degenerate inputs. -/
lemma invert_sep (l : List (ℤ × ℤ)) (T : ℤ)
    (hv : ∀ r ∈ l, r.1 < r.2) :
    (invert_ranges l T).Pairwise (fun a b => a.2 < b.1) :=
  sweep_sep (sortRanges l) 0 T
    (fun r hr => hv r ((sortRanges_perm l).mem_iff.mp hr))

/-- Duration sum of a list of valid, pairwise-separated ranges inside
`[0, T)` equals the number of integer points it covers. -/
lemma keepSum_eq_card (T : ℤ) :
    ∀ (M : List (ℤ × ℤ)),
      (∀ r ∈ M, 0 ≤ r.1 ∧ r.1 < r.2 ∧ r.2 ≤ T) →
      M.Pairwise (fun a b => a.2 ≤ b.1) →
      keepSum M =
        (((Finset.Ico (0 : ℤ) T).filter (fun x => covers M x)).card : ℤ) := by
  intro M
  induction M with
  | nil =>
    intro _ _
    simp [keepSum, covers]
  | cons r M ih =>
    intro hb hsep
    obtain ⟨hr0, hr1, hr2⟩ := hb r (List.mem_cons_self _ _)
    have hbM : ∀ r2 ∈ M, 0 ≤ r2.1 ∧ r2.1 < r2.2 ∧ r2.2 ≤ T :=
      fun r2 h => hb r2 (List.mem_cons_of_mem _ h)
    have hhead : ∀ b ∈ M, r.2 ≤ b.1 := (List.pairwise_cons.mp hsep).1
    have hM := ih hbM (List.pairwise_cons.mp hsep).2
    have hfilter : (Finset.Ico (0 : ℤ) T).filter (fun x => covers (r :: M) x)
        = ((Finset.Ico (0 : ℤ) T).filter (fun x => r.1 ≤ x ∧ x < r.2))
          ∪ ((Finset.Ico (0 : ℤ) T).filter (fun x => covers M x)) := by
      ext y
      simp only [Finset.mem_filter, Finset.mem_union, covers_cons]
      tauto
    have hdisj : Disjoint
        ((Finset.Ico (0 : ℤ) T).filter (fun x => r.1 ≤ x ∧ x < r.2))
        ((Finset.Ico (0 : ℤ) T).filter (fun x => covers M x)) := by
      rw [Finset.disjoint_left]
      intro a ha haM
      rw [Finset.mem_filter] at ha haM
      rcases haM.2 with ⟨b, hbmem, h1, _⟩
      have h2 := hhead b hbmem
      have h3 := ha.2
      omega
    have hIab : (Finset.Ico (0 : ℤ) T).filter (fun x => r.1 ≤ x ∧ x < r.2)
        = Finset.Ico r.1 r.2 := by
      ext y
      simp only [Finset.mem_filter, Finset.mem_Ico]
      omega
    have h1 : keepSum (r :: M) = (r.2 - r.1) + keepSum M := by
      simp [keepSum]
    have h2 : ((Finset.Ico r.1 r.2).card : ℤ) = r.2 - r.1 :=
      Int.card_Ico_of_le r.1 r.2 (le_of_lt hr1)
    rw [h1, hM, hfilter, Finset.card_union_of_disjoint hdisj, hIab]
    push_cast
    omega

/-- C1 counterexample: with the remove-range `(5000, 6000)` (which satisfies
`0 ≤ start < end`) and `total_duration_ms = 1000`, `invert_ranges` returns
`[(0, 5000)]`, whose end `5000` exceeds the total duration: the resolver does
not clamp its output to the duration. -/
theorem C1_counterexample :
    ¬ (∀ r ∈ invert_ranges [((5000 : ℤ), 6000)] 1000,
        0 ≤ r.1 ∧ r.1 < r.2 ∧ r.2 ≤ 1000) := by
  decide

/-- C1 (amended): if additionally every remove-range ends at or before
`total_duration_ms`, then every range returned by `invert_ranges` satisfies
`0 ≤ start < end ≤ total_duration_ms`. -/
theorem C1_amended (l : List (ℤ × ℤ)) (T : ℤ) (_hT : 0 ≤ T)
    (hv : ∀ r ∈ l, 0 ≤ r.1 ∧ r.1 < r.2 ∧ r.2 ≤ T) :
    ∀ r ∈ invert_ranges l T, 0 ≤ r.1 ∧ r.1 < r.2 ∧ r.2 ≤ T := by
  have hperm := sortRanges_perm l
  exact sweep_bounds (sortRanges l) 0 T (le_refl 0)
    (fun r hr =>
      have h := hv r (hperm.mem_iff.mp hr)
      ⟨le_of_lt h.2.1, h.2.2⟩)

/-- C1 witness: the amended theorem applied at the concrete input
`[(2, 4)]`, `total_duration_ms = 10`. -/
theorem C1_witness :
    (0 : ℤ) ≤ 10 ∧
    (∀ r ∈ [((2 : ℤ), 4)], 0 ≤ r.1 ∧ r.1 < r.2 ∧ r.2 ≤ 10) ∧
    (∀ r ∈ invert_ranges [((2 : ℤ), 4)] 10,
      0 ≤ r.1 ∧ r.1 < r.2 ∧ r.2 ≤ 10) :=
  ⟨by decide, by decide, C1_amended [((2 : ℤ), 4)] 10 (by decide) (by decide)⟩

/-- C4: for every list of remove-ranges whose elements satisfy
`0 ≤ start < end` and every `total_duration_ms`, the output of
`invert_ranges` is strictly ordered by start and pairwise non-overlapping
(each range ends at or before the next begins). -/
theorem C4_output_disjoint_sorted (l : List (ℤ × ℤ)) (T : ℤ)
    (hv : ∀ r ∈ l, 0 ≤ r.1 ∧ r.1 < r.2) :
    (invert_ranges l T).Pairwise (fun a b => a.1 < b.1) ∧
    (invert_ranges l T).Pairwise (fun a b => a.2 ≤ b.1) := by
  have hperm := sortRanges_perm l
  have hvp : ∀ r ∈ sortRanges l, r.1 < r.2 :=
    fun r hr => (hv r (hperm.mem_iff.mp hr)).2
  have hsep := sweep_sep (sortRanges l) 0 T hvp
  have hval := sweep_valid (sortRanges l) 0 T
  constructor
  · exact hsep.imp_of_mem (fun ha _ hab => lt_trans (hval _ ha) hab)
  · exact hsep.imp_of_mem (fun _ _ hab => le_of_lt hab)

/-- C4 witness: the theorem applied at the concrete input
`[(1, 3), (2, 5)]`, `total_duration_ms = 10`. -/
theorem C4_witness :
    (∀ r ∈ [((1 : ℤ), 3), (2, 5)], 0 ≤ r.1 ∧ r.1 < r.2) ∧
    ((invert_ranges [((1 : ℤ), 3), (2, 5)] 10).Pairwise
        (fun a b => a.1 < b.1) ∧
      (invert_ranges [((1 : ℤ), 3), (2, 5)] 10).Pairwise
        (fun a b => a.2 ≤ b.1)) :=
  ⟨by decide, C4_output_disjoint_sorted [((1 : ℤ), 3), (2, 5)] 10 (by decide)⟩

/-- C2 counterexample: for the remove-range list `[(15, 20)]` (a valid range,
but lying beyond the duration) and `total_duration_ms = 10`, `invert_ranges`
returns `[(0, 15)]` with duration sum `15`, while the clamped, merged removed
region has measure `0`; `15 + 0 ≠ 10`. -/
theorem C2_counterexample :
    keepSum (invert_ranges [((15 : ℤ), 20)] 10)
      + removedMeasure [((15 : ℤ), 20)] 10 ≠ 10 := by
  decide

/-- C2 (amended): for every non-negative `total_duration_ms` and every list
of remove-ranges each satisfying `0 ≤ start < end ≤ total_duration_ms`, the
sum of `end - start` over the keep-ranges returned by `invert_ranges` plus
the measure of the (clamped, merged) union of the remove-ranges equals
`total_duration_ms`. -/
theorem C2_amended (l : List (ℤ × ℤ)) (T : ℤ) (hT : 0 ≤ T)
    (hv : ∀ r ∈ l, 0 ≤ r.1 ∧ r.1 < r.2 ∧ r.2 ≤ T) :
    keepSum (invert_ranges l T) + removedMeasure l T = T := by
  have hvw : ∀ r ∈ l, r.1 ≤ r.2 ∧ r.2 ≤ T :=
    fun r hr => ⟨le_of_lt (hv r hr).2.1, (hv r hr).2.2⟩
  have hKb : ∀ r ∈ invert_ranges l T, 0 ≤ r.1 ∧ r.1 < r.2 ∧ r.2 ≤ T :=
    invert_bounds l T hvw
  have hKsep : (invert_ranges l T).Pairwise (fun a b => a.2 ≤ b.1) :=
    (invert_sep l T (fun r hr => (hv r hr).2.1)).imp_of_mem
      (fun _ _ h => le_of_lt h)
  have hsum := keepSum_eq_card T (invert_ranges l T) hKb hKsep
  have hfeq : (Finset.Ico (0 : ℤ) T).filter (fun x => covers (invert_ranges l T) x)
      = (Finset.Ico (0 : ℤ) T).filter (fun x => ¬ covers l x) := by
    apply Finset.filter_congr
    intro x hx
    rw [Finset.mem_Ico] at hx
    rw [invert_cover l T hvw x]
    constructor
    · rintro ⟨_, _, h⟩; exact h
    · intro h; exact ⟨hx.1, hx.2, h⟩
  have hcompl := Finset.filter_card_add_filter_neg_card_eq_card
    (s := Finset.Ico (0 : ℤ) T) (fun x => covers l x)
  have hTcard : ((Finset.Ico (0 : ℤ) T).card : ℤ) = T := by
    rw [Int.card_Ico_of_le 0 T hT]
    ring
  rw [hsum, hfeq]
  unfold removedMeasure
  have hcast := congrArg (fun n : ℕ => (n : ℤ)) hcompl
  push_cast at hcast
  omega

/-- C2 witness: the amended theorem applied at the concrete input
`[(2, 4), (3, 5)]`, `total_duration_ms = 10`. -/
theorem C2_witness :
    (0 : ℤ) ≤ 10 ∧
    (∀ r ∈ [((2 : ℤ), 4), (3, 5)], 0 ≤ r.1 ∧ r.1 < r.2 ∧ r.2 ≤ 10) ∧
    keepSum (invert_ranges [((2 : ℤ), 4), (3, 5)] 10)
      + removedMeasure [((2 : ℤ), 4), (3, 5)] 10 = 10 :=
  ⟨by decide, by decide,
    C2_amended [((2 : ℤ), 4), (3, 5)] 10 (by decide) (by decide)⟩

/-- C5 counterexample: inserting the zero-length range `(5, 5)` into the
empty remove list with `total_duration_ms = 10` changes the returned list:
`invert_ranges [(5,5)] 10 = [(0,5),(5,10)]` but `invert_ranges [] 10 =
[(0,10)]` — the degenerate range splits a keep-range, so the claimed list
equality fails. -/
theorem C5_counterexample :
    invert_ranges [((5 : ℤ), 5)] 10 ≠ invert_ranges ([] : List (ℤ × ℤ)) 10 := by
  decide

/-- C5 (amended): a zero-length range contributes no removed content: for
every split `l1 ++ l2` of a remove list whose ranges satisfy
`start ≤ end ≤ total_duration_ms` and every offset `s ≤ total_duration_ms`,
the keep-ranges computed with the degenerate `(s, s)` inserted cover exactly
the same time points as those computed without it (the returned list itself
may differ, by splitting a keep-range at `s` into two adjacent ranges). -/
theorem C5_amended (l1 l2 : List (ℤ × ℤ)) (s T : ℤ)
    (hv : ∀ r ∈ l1 ++ l2, r.1 ≤ r.2 ∧ r.2 ≤ T) (hs : s ≤ T) (x : ℤ) :
    covers (invert_ranges (l1 ++ (s, s) :: l2) T) x ↔
      covers (invert_ranges (l1 ++ l2) T) x := by
  have hv2 : ∀ r ∈ l1 ++ (s, s) :: l2, r.1 ≤ r.2 ∧ r.2 ≤ T := by
    intro r hr
    rw [List.mem_append, List.mem_cons] at hr
    rcases hr with h | h | h
    · exact hv r (List.mem_append.mpr (Or.inl h))
    · rcases h with rfl; exact ⟨le_refl s, hs⟩
    · exact hv r (List.mem_append.mpr (Or.inr h))
  rw [invert_cover _ T hv2 x, invert_cover _ T hv x]
  have hcov : covers (l1 ++ (s, s) :: l2) x ↔ covers (l1 ++ l2) x := by
    rw [covers_append, covers_cons, covers_append]
    constructor
    · rintro (h | (⟨h1, h2⟩ | h))
      · exact Or.inl h
      · exact absurd (lt_of_le_of_lt h1 h2) (lt_irrefl s)
      · exact Or.inr h
    · rintro (h | h)
      · exact Or.inl h
      · exact Or.inr (Or.inr h)
  rw [hcov]

/-- C5 witness: the amended theorem applied at `l1 = []`, `l2 = [(2, 4)]`,
`s = 5`, `total_duration_ms = 10`, time point `x = 1`. -/
theorem C5_witness :
    (∀ r ∈ ([] : List (ℤ × ℤ)) ++ [((2 : ℤ), 4)], r.1 ≤ r.2 ∧ r.2 ≤ 10) ∧
    (5 : ℤ) ≤ 10 ∧
    (covers (invert_ranges (([] : List (ℤ × ℤ)) ++ ((5 : ℤ), 5) :: [((2 : ℤ), 4)]) 10) 1 ↔
      covers (invert_ranges (([] : List (ℤ × ℤ)) ++ [((2 : ℤ), 4)]) 10) 1) :=
  ⟨by decide, by decide,
    C5_amended [] [((2 : ℤ), 4)] 5 10 (by decide) (by decide) 1⟩

/-- Canonical-form uniqueness: two lists of non-degenerate, strictly
separated ranges covering the same integer points are equal. -/
lemma cover_unique :
    ∀ (L M : List (ℤ × ℤ)),
      (∀ r ∈ L, r.1 < r.2) → (∀ r ∈ M, r.1 < r.2) →
      L.Pairwise (fun a b => a.2 < b.1) → M.Pairwise (fun a b => a.2 < b.1) →
      (∀ x, covers L x ↔ covers M x) → L = M := by
  intro L
  induction L with
  | nil =>
    intro M _ hMv _ _ hcov
    cases M with
    | nil => rfl
    | cons b M =>
      exfalso
      have hb := hMv b (List.mem_cons_self _ _)
      have hc : covers (b :: M) b.1 := ⟨b, List.mem_cons_self _ _, le_refl _, hb⟩
      exact (covers_nil b.1) ((hcov b.1).mpr hc)
  | cons a L ih =>
    intro M hLv hMv hLsep hMsep hcov
    cases M with
    | nil =>
      exfalso
      have ha := hLv a (List.mem_cons_self _ _)
      have hc : covers (a :: L) a.1 := ⟨a, List.mem_cons_self _ _, le_refl _, ha⟩
      exact (covers_nil a.1) ((hcov a.1).mp hc)
    | cons b M =>
      have ha := hLv a (List.mem_cons_self _ _)
      have hb := hMv b (List.mem_cons_self _ _)
      have hLtail : ∀ c ∈ L, a.2 < c.1 := (List.pairwise_cons.mp hLsep).1
      have hMtail : ∀ c ∈ M, b.2 < c.1 := (List.pairwise_cons.mp hMsep).1
      have hab1 : a.1 = b.1 := by
        have h1 : covers (b :: M) a.1 :=
          (hcov a.1).mp ⟨a, List.mem_cons_self _ _, le_refl _, ha⟩
        have h2 : covers (a :: L) b.1 :=
          (hcov b.1).mpr ⟨b, List.mem_cons_self _ _, le_refl _, hb⟩
        have hba : b.1 ≤ a.1 := by
          rcases h1 with ⟨c, hc, h3, _⟩
          rcases List.mem_cons.mp hc with rfl | hc2
          · exact h3
          · exact le_of_lt (lt_of_lt_of_le (lt_trans hb (hMtail c hc2)) h3)
        have hab : a.1 ≤ b.1 := by
          rcases h2 with ⟨c, hc, h3, _⟩
          rcases List.mem_cons.mp hc with rfl | hc2
          · exact h3
          · exact le_of_lt (lt_of_lt_of_le (lt_trans ha (hLtail c hc2)) h3)
        exact le_antisymm hab hba
      have hab2 : a.2 = b.2 := by
        by_contra hne
        rcases lt_or_gt_of_ne hne with hlt | hgt
        · have hcb : covers (b :: M) a.2 :=
            ⟨b, List.mem_cons_self _ _, by rw [← hab1]; exact le_of_lt ha, hlt⟩
          rcases (hcov a.2).mpr hcb with ⟨c, hc, h3, h4⟩
          rcases List.mem_cons.mp hc with rfl | hc2
          · exact absurd h4 (lt_irrefl _)
          · exact absurd (lt_of_lt_of_le (hLtail c hc2) h3) (lt_irrefl _)
        · have hca : covers (a :: L) b.2 :=
            ⟨a, List.mem_cons_self _ _, by rw [hab1]; exact le_of_lt hb, hgt⟩
          rcases (hcov b.2).mp hca with ⟨c, hc, h3, h4⟩
          rcases List.mem_cons.mp hc with rfl | hc2
          · exact absurd h4 (lt_irrefl _)
          · exact absurd (lt_of_lt_of_le (hMtail c hc2) h3) (lt_irrefl _)
      have habe : a = b := Prod.ext hab1 hab2
      subst habe
      congr 1
      refine ih M (fun r hr => hLv r (List.mem_cons_of_mem _ hr))
        (fun r hr => hMv r (List.mem_cons_of_mem _ hr))
        (List.pairwise_cons.mp hLsep).2 (List.pairwise_cons.mp hMsep).2 ?_
      intro x
      constructor
      · rintro ⟨c, hc, h3, h4⟩
        have hcc : covers (a :: M) x :=
          (hcov x).mp ⟨c, List.mem_cons_of_mem _ hc, h3, h4⟩
        rcases hcc with ⟨d, hd, h6, h7⟩
        rcases List.mem_cons.mp hd with rfl | hd2
        · exact absurd h7 (by
            have := lt_of_lt_of_le (hLtail c hc) h3
            omega)
        · exact ⟨d, hd2, h6, h7⟩
      · rintro ⟨c, hc, h3, h4⟩
        have hcc : covers (a :: L) x :=
          (hcov x).mpr ⟨c, List.mem_cons_of_mem _ hc, h3, h4⟩
        rcases hcc with ⟨d, hd, h6, h7⟩
        rcases List.mem_cons.mp hd with rfl | hd2
        · exact absurd h7 (by
            have := lt_of_lt_of_le (hMtail c hc) h3
            omega)
        · exact ⟨d, hd2, h6, h7⟩

/-- C7: for a remove-range list of valid ranges within
`[0, total_duration_ms]`, applying `invert_ranges` twice yields the merged,
sorted form of the original removed region: the double inversion covers
exactly the removed points, its ranges are valid, bounded and strictly
separated (hence sorted and maximal), and it equals any list with those
canonical properties. -/
theorem C7_double_inversion (l : List (ℤ × ℤ)) (T : ℤ)
    (hv : ∀ r ∈ l, 0 ≤ r.1 ∧ r.1 < r.2 ∧ r.2 ≤ T) :
    (∀ x, covers (invert_ranges (invert_ranges l T) T) x ↔ covers l x) ∧
    (∀ r ∈ invert_ranges (invert_ranges l T) T,
      0 ≤ r.1 ∧ r.1 < r.2 ∧ r.2 ≤ T) ∧
    (invert_ranges (invert_ranges l T) T).Pairwise (fun a b => a.2 < b.1) ∧
    (∀ M, (∀ r ∈ M, r.1 < r.2) → M.Pairwise (fun a b => a.2 < b.1) →
      (∀ x, covers M x ↔ covers l x) →
      invert_ranges (invert_ranges l T) T = M) := by
  have hvw : ∀ r ∈ l, r.1 ≤ r.2 ∧ r.2 ≤ T :=
    fun r hr => ⟨le_of_lt (hv r hr).2.1, (hv r hr).2.2⟩
  have hKb := invert_bounds l T hvw
  have hKw : ∀ r ∈ invert_ranges l T, r.1 ≤ r.2 ∧ r.2 ≤ T :=
    fun r hr => ⟨le_of_lt (hKb r hr).2.1, (hKb r hr).2.2⟩
  have hDb := invert_bounds (invert_ranges l T) T hKw
  have hDsep := invert_sep (invert_ranges l T) T (fun r hr => (hKb r hr).2.1)
  have hlx : ∀ x, covers l x → 0 ≤ x ∧ x < T := by
    rintro x ⟨c, hc, h1, h2⟩
    have hc2 := hv c hc
    exact ⟨le_trans hc2.1 h1, lt_of_lt_of_le h2 hc2.2.2⟩
  have hcovD : ∀ x,
      covers (invert_ranges (invert_ranges l T) T) x ↔ covers l x := by
    intro x
    rw [invert_cover _ T hKw x, invert_cover l T hvw x]
    constructor
    · rintro ⟨h1, h2, h3⟩
      by_contra hnl
      exact h3 ⟨h1, h2, hnl⟩
    · intro hx
      have hbd := hlx x hx
      exact ⟨hbd.1, hbd.2, fun hcon => hcon.2.2 hx⟩
  refine ⟨hcovD, hDb, hDsep, ?_⟩
  intro M hMv hMsep hMcov
  exact cover_unique _ M (fun r hr => (hDb r hr).2.1) hMv hDsep hMsep
    (fun x => (hcovD x).trans (hMcov x).symm)

/-- C7 witness: the theorem applied at the concrete input
`[(2, 4), (6, 8)]`, `total_duration_ms = 10`. -/
theorem C7_witness :
    (∀ r ∈ [((2 : ℤ), 4), (6, 8)], 0 ≤ r.1 ∧ r.1 < r.2 ∧ r.2 ≤ 10) ∧
    ((∀ x, covers (invert_ranges (invert_ranges [((2 : ℤ), 4), (6, 8)] 10) 10) x ↔
        covers [((2 : ℤ), 4), (6, 8)] x) ∧
      (∀ r ∈ invert_ranges (invert_ranges [((2 : ℤ), 4), (6, 8)] 10) 10,
        0 ≤ r.1 ∧ r.1 < r.2 ∧ r.2 ≤ 10) ∧
      (invert_ranges (invert_ranges [((2 : ℤ), 4), (6, 8)] 10) 10).Pairwise
        (fun a b => a.2 < b.1) ∧
      (∀ M, (∀ r ∈ M, r.1 < r.2) → M.Pairwise (fun a b => a.2 < b.1) →
        (∀ x, covers M x ↔ covers [((2 : ℤ), 4), (6, 8)] x) →
        invert_ranges (invert_ranges [((2 : ℤ), 4), (6, 8)] 10) 10 = M)) :=
  ⟨by decide, C7_double_inversion [((2 : ℤ), 4), (6, 8)] 10 (by decide)⟩

/-- C6: in Keep mode the keep-ranges used by `process_audio` are exactly the
input list sorted ascending by start — a permutation of the input (no
merging, clamping or deduplication) — and the keep-mode scenario
`[(500,1500),(2000,2500)]` is returned unchanged. -/
theorem C6_keep_mode (l : List (ℤ × ℤ)) (T : ℤ) :
    (resolve_keep_ranges l T true).Perm l ∧
    (resolve_keep_ranges l T true).Pairwise keyLe ∧
    resolve_keep_ranges [((500 : ℤ), 1500), (2000, 2500)] T true =
      [(500, 1500), (2000, 2500)] :=
  ⟨sortRanges_perm l, sortRanges_sorted l, rfl⟩

/-- C9: if the input file exists but loading it fails, `process_audio`
surfaces a single `RuntimeError` wrapping the underlying failure message,
performs no slice, append or export operation, and reports no progress after
the initial pre-load `0.1` call: no retry, no partial output. -/
theorem C9_load_failure (env : Env) (ranges : List (ℤ × ℤ))
    (keepSel cb : Bool) (msg : String)
    (hex : env.inputExists = true)
    (hload : env.loadResult = Except.error msg) :
    process_audio env ranges keepSel cb =
      ((if cb then [Ev.progress (1 / 10)] else []),
        Except.error (PErr.runtimeError ("Failed to load audio: " ++ msg))) ∧
    (∀ a b : ℤ, Ev.slice a b ∉ (process_audio env ranges keepSel cb).1) ∧
    Ev.append ∉ (process_audio env ranges keepSel cb).1 ∧
    Ev.exportFile ∉ (process_audio env ranges keepSel cb).1 := by
  have heq : process_audio env ranges keepSel cb =
      ((if cb then [Ev.progress (1 / 10)] else []),
        Except.error (PErr.runtimeError ("Failed to load audio: " ++ msg))) := by
    unfold process_audio
    rw [hex, hload]
    simp
  refine ⟨heq, ?_, ?_, ?_⟩
  · intro a b
    rw [heq]
    cases cb <;> simp
  · rw [heq]
    cases cb <;> simp
  · rw [heq]
    cases cb <;> simp

/-- C9 witness: the theorem applied to a concrete environment whose load
fails with message "bad header". -/
theorem C9_witness :
    (Env.mk true (Except.error "bad header") true).inputExists = true ∧
    (Env.mk true (Except.error "bad header") true).loadResult =
      Except.error "bad header" ∧
    process_audio (Env.mk true (Except.error "bad header") true) [] false true =
      ([Ev.progress (1 / 10)],
        Except.error (PErr.runtimeError "Failed to load audio: bad header")) :=
  ⟨rfl, rfl,
    (C9_load_failure (Env.mk true (Except.error "bad header") true) [] false
      true "bad header" rfl rfl).1⟩

/-- C10: both `invert_ranges` and the Keep-mode branch of `process_audio`
sort the caller-supplied list in place — after the call the caller's own
list is a permutation of its old contents in ascending order of start, and
nothing else about the elements changes; the computed keep-ranges agree with
the functional definitions. -/
theorem C10_inplace_sort (l : List (ℤ × ℤ)) (T : ℤ) :
    (invert_ranges_call l T).1.Perm l ∧
    (invert_ranges_call l T).1.Pairwise keyLe ∧
    (keep_branch_call l).1.Perm l ∧
    (keep_branch_call l).1.Pairwise keyLe ∧
    (invert_ranges_call l T).2 = invert_ranges l T ∧
    (keep_branch_call l).2 = resolve_keep_ranges l T true :=
  ⟨sortRanges_perm l, sortRanges_sorted l, sortRanges_perm l,
    sortRanges_sorted l, rfl, rfl⟩

/-- C3: `invert_ranges` on the overlapping remove-ranges
`[(2000,3000),(2500,4000)]` with `total_duration_ms = 10000` returns exactly
`[(0,2000),(4000,10000)]`: overlapping remove-ranges are merged by the cursor
sweep. -/
theorem C3_scenarioA :
    invert_ranges [((2000 : ℤ), 3000), (2500, 4000)] 10000 =
      [(0, 2000), (4000, 10000)] := by
  decide

end TrimToFit
